import Mathlib

/-!
# Android File Transfer for Linux: path resolution, GUI command queue, FUSE directory reply

A shallow embedding of

* `cli::Session::Resolve` (src/cli/Session.cpp),
* `CommandQueue` (src/qt/commandqueue.cpp),
* `mtp::fuse::FuseDirectory::Reply` (src/fuse/FuseDirectory.h),

followed by the properties proved about them.

`std::string` and `QString` are lists of characters, object handles (`mtp::u32`) and
`size_t` values are natural numbers, `qint64` and `off_t` are integers, with the 64-bit
range made explicit where the code computes with them.  Calls that leave
the translated files (the MTP session, the Qt model, the file system) are answered by an
explicit record of functions, and every such call is appended to a trace.
-/

namespace cli

/-! ## src/cli/Session.cpp : `Session::Resolve` -/

/-- The two members of `mtp::ObjectProperty` that `Resolve` names. -/
inductive ObjectProperty
  | ParentObject
  | ObjectFilename
  deriving DecidableEq, Repr

/-- One call made on `_session`, with its arguments, as it appears in the trace. -/
inductive Query
  | GetObjectHandles (storage format parent : Nat)
  | GetObjectIntegerProperty (id : Nat) (property : ObjectProperty)
  | GetObjectStringProperty (id : Nat) (property : ObjectProperty)
  deriving DecidableEq, Repr

/-- What a call can throw: `device` is an exception raised inside an `mtp::Session` call,
`runtime_error` is the `std::runtime_error` that `Resolve` itself throws; both carry
`what()`. -/
inductive Exception
  | device (what : List Char)
  | runtime_error (what : List Char)
  deriving DecidableEq, Repr

deriving instance DecidableEq for Except

/-- The part of `mtp::Session` that `Resolve` uses.  The three constants and the three
member functions are declared outside the translated file and are taken as given; the
functions are fixed for the duration of one `Resolve` call.  The parent-object property
is an object handle, a 32-bit value, so the assignment to `mtp::u32 id` keeps it. -/
structure MtpSession where
  Root : Nat
  AllStorages : Nat
  AllFormats : Nat
  GetObjectHandles : Nat → Nat → Nat → Except Exception (List Nat)
  GetObjectIntegerProperty : Nat → ObjectProperty → Except Exception Nat
  GetObjectStringProperty : Nat → ObjectProperty → Except Exception (List Char)

/-- The value returned or the exception thrown, together with the calls made on
`_session` in the order they were made. -/
structure Outcome where
  result : Except Exception Nat
  trace : List Query
  deriving DecidableEq

/-- Model of `std::string::find(c, pos)`: the index of the first `c` at or after `pos`;
`none` is `npos`. -/
def find (path : List Char) (c : Char) (pos : Nat) : Option Nat :=
  let i := ((path.drop pos).takeWhile (fun x => x != c)).length
  if pos + i < path.length then some (pos + i) else none

/-- Model of `std::string::substr(pos, n)` for `pos ≤ size()`. -/
def substr (path : List Char) (pos n : Nat) : List Char :=
  (path.drop pos).take n

/-- The inner `for(auto object : objectList.ObjectHandles)` loop of `Resolve`: ask for the
filename of each listed handle in turn and stop at the first one equal to `entity`.
`some object` is `found == true` with `id = object`; `none` is `found == false`. -/
def scanObjects (S : MtpSession) (entity : List Char) :
    List Nat → List Query → Except Exception (Option Nat) × List Query
  | [], tr => (.ok none, tr)
  | object :: rest, tr =>
    let tr1 := tr ++ [Query.GetObjectStringProperty object ObjectProperty.ObjectFilename]
    match S.GetObjectStringProperty object ObjectProperty.ObjectFilename with
    | .error e => (.error e, tr1)
    | .ok name =>
      if name = entity then (.ok (some object), tr1)
      else scanObjects S entity rest tr1

/-- The body of the `else` branch for a segment other than `.` and `..`: list the children
of `id` over all storages and all formats, scan them, and throw when nothing matched.
`consumed` is `path.substr(0, p)`. -/
def lookupEntity (S : MtpSession) (consumed entity : List Char) (id : Nat)
    (tr : List Query) : Outcome :=
  let tr1 := tr ++ [Query.GetObjectHandles S.AllStorages S.AllFormats id]
  match S.GetObjectHandles S.AllStorages S.AllFormats id with
  | .error e => ⟨.error e, tr1⟩
  | .ok objectList =>
    match scanObjects S entity objectList tr1 with
    | (.error e, tr2) => ⟨.error e, tr2⟩
    | (.ok (some object), tr2) => ⟨.ok object, tr2⟩
    | (.ok none, tr2) =>
      ⟨.error (Exception.runtime_error
        ("could not find ".toList ++ entity ++ " in path ".toList ++ consumed)), tr2⟩

/-- The body of one iteration of the outer loop, for the segment `entity` that starts at
index `p` (`consumed = path.substr(0, p)`), from the handle `id`. -/
def resolveEntity (S : MtpSession) (consumed entity : List Char) (id : Nat)
    (tr : List Query) : Outcome :=
  if entity = ['.'] then ⟨.ok id, tr⟩
  else if entity = ['.', '.'] then
    let tr1 := tr ++ [Query.GetObjectIntegerProperty id ObjectProperty.ParentObject]
    match S.GetObjectIntegerProperty id ObjectProperty.ParentObject with
    | .error e => ⟨.error e, tr1⟩
    | .ok parent => ⟨.ok (if parent = 0 then S.Root else parent), tr1⟩
  else lookupEntity S consumed entity id tr

/-- The `for(size_t p = 0; p < path.size(); )` loop of `Resolve`, from index `p` with the
current handle `id`.  `fuel` bounds the number of iterations by the number of characters
left, which the hypothesis guarantees to be enough: every iteration moves `p` past at
least one character. -/
def ResolveLoop (S : MtpSession) (path : List Char) :
    (fuel p : Nat) → path.length - p ≤ fuel → Nat → List Query → Outcome
  | 0, _, _, id, tr => ⟨.ok id, tr⟩
  | fuel + 1, p, h, id, tr =>
    if hp : p < path.length then
      let next := (find path '/' p).getD path.length
      have hnext : path.length - (next + 1) ≤ fuel := by
        have : p ≤ next := by
          show p ≤ (find path '/' p).getD path.length
          unfold find
          simp only []
          split
          · simp
          · simp only [Option.getD_none]; omega
        omega
      let entity := substr path p (next - p)
      match resolveEntity S (substr path 0 p) entity id tr with
      | ⟨.error e, tr1⟩ => ⟨.error e, tr1⟩
      | ⟨.ok id1, tr1⟩ => ResolveLoop S path fuel (next + 1) hnext id1 tr1
    else ⟨.ok id, tr⟩

/-- Model of `mtp::u32 Session::Resolve(const Path &path)` with `_cd = cd`. -/
def Resolve (S : MtpSession) (cd : Nat) (path : List Char) : Outcome :=
  ResolveLoop S path path.length 0 (by omega) cd []

/-! ### The segments of a path and the per-segment step -/

/-- The segments that the loop of `Resolve` visits: the pieces of `path` between the
`/` separators, empty pieces included, except that an empty piece after the last
character of the path (the empty path, or what follows a final `/`) is not a segment. -/
def segments (path : List Char) : List (List Char) :=
  let pieces := path.splitOn '/'
  if pieces.getLast? = some [] then pieces.dropLast else pieces

/-- The segments of a path in the words of the specification: every piece between
consecutive separators, empty pieces included; the empty path has no segments. -/
def specSegments (path : List Char) : List (List Char) :=
  if path = [] then [] else path.splitOn '/'

/-- The text consumed once every segment of `segs` has been processed: each segment
followed by its separator. -/
def consumedAfter (segs : List (List Char)) : List Char :=
  (segs.map (fun seg => seg ++ ['/'])).flatten

/-- State of a left-to-right walk over segments: the text consumed so far and the
outcome so far. -/
structure WalkState where
  consumed : List Char
  outcome : Outcome

/-- The per-segment step: after a failure nothing more happens; otherwise `.` keeps the
handle, `..` goes to the parent and any other segment looks up a child by filename
(`resolveEntity`), and the segment and its separator join the consumed text. -/
def stepSegment (S : MtpSession) (st : WalkState) (seg : List Char) : WalkState :=
  match st.outcome.result with
  | .error _ => st
  | .ok id =>
    ⟨st.consumed ++ seg ++ ['/'], resolveEntity S st.consumed seg id st.outcome.trace⟩

/-- The left-to-right fold of the per-segment step over a list of segments, from the
handle `cd`. -/
def foldSegments (S : MtpSession) (cd : Nat) (segs : List (List Char)) : Outcome :=
  (segs.foldl (stepSegment S) ⟨[], ⟨.ok cd, []⟩⟩).outcome

/-- The same walk written as a recursion, with the consumed text and the trace so far as
arguments. -/
def walk (S : MtpSession) : List Char → List (List Char) → Nat → List Query → Outcome
  | _, [], id, tr => ⟨.ok id, tr⟩
  | consumed, seg :: rest, id, tr =>
    match resolveEntity S consumed seg id tr with
    | ⟨.error e, tr1⟩ => ⟨.error e, tr1⟩
    | ⟨.ok id1, tr1⟩ => walk S (consumed ++ seg ++ ['/']) rest id1 tr1

/-- The handle an outcome carries, `none` for a failure. -/
def Outcome.handle (o : Outcome) : Option Nat :=
  match o.result with
  | .ok id => some id
  | .error _ => none

/-- A small device used in examples: the root (handle 100) lists the handles 1 and 2. -/
def deviceA : MtpSession where
  Root := 100
  AllStorages := 4294967295
  AllFormats := 0
  GetObjectHandles := fun _ _ parent =>
    if parent = 100 then .ok [1, 2] else if parent = 1 then .ok [3] else .ok []
  GetObjectIntegerProperty := fun id _ =>
    if id = 3 then .ok 1 else .ok 0
  GetObjectStringProperty := fun id _ =>
    if id = 1 then .ok ['a'] else if id = 2 then .ok ['b'] else if id = 3 then .ok ['c']
    else .error (Exception.device "invalid handle".toList)

/-- A device whose root (handle 100) lists two children with the same filename `a`: the
first, handle 1, reports the parent 7, the second, handle 2, reports no parent. -/
def deviceDup : MtpSession where
  Root := 100
  AllStorages := 4294967295
  AllFormats := 0
  GetObjectHandles := fun _ _ parent => if parent = 100 then .ok [1, 2] else .ok []
  GetObjectIntegerProperty := fun id _ => if id = 1 then .ok 7 else .ok 0
  GetObjectStringProperty := fun id _ =>
    if id = 1 ∨ id = 2 then .ok ['a'] else .error (Exception.device "invalid handle".toList)

end cli

namespace cli



end cli

namespace qt

/-! ## src/qt/commandqueue.cpp : `CommandQueue` -/

abbrev QString := List Char

abbrev ObjectId := Nat

/-- What one transfer call on the model does as seen from the queue: the
`filePositionChanged(pos, total)` signals it emits while it runs, which reach the slot
`onFileProgress`, and whether it returns or throws a `std::exception` (`what()`). -/
structure Transfer where
  positions : List (Int × Int)
  result : Except QString Unit

/-- The answers of everything `CommandQueue` calls outside commandqueue.cpp: `QFileInfo`
and `QDir` on a file name, the `MtpObjectsModel` and its MTP session. -/
structure World where
  /-- Answer of `QFileInfo(filename).fileName()`. -/
  fileName : QString → QString
  /-- Answer of `QFileInfo(filename).dir().path()`. -/
  dirPath : QString → QString
  /-- Answer of `QFileInfo(filename).size()`, a `qint64` byte count. -/
  size : QString → Int
  /-- Answer of `QDir(srcPath).path()`. -/
  path : QString → QString
  /-- Path of `parentDir` after the `Q_ASSERT(parentDir.cdUp())` line, for `QDir(path)`. -/
  parentPath : QString → QString
  /-- Answer of `QDir(srcPath).dirName()`. -/
  dirName : QString → QString
  /-- Answer of `_model->parentObjectId()`. -/
  parentObjectId : ObjectId
  /-- Behaviour of `model()->downloadFile(filename, objectId)`. -/
  downloadFile : QString → ObjectId → Transfer
  /-- Behaviour of `_model->uploadFile(parent, filename)`. -/
  uploadFile : ObjectId → QString → Transfer
  /-- Behaviour of `_model->createDirectory(parent, name)`. -/
  createDirectory : ObjectId → QString → Except QString ObjectId
  /-- Behaviour of `model()->setParent(directoryId)`. -/
  setParent : ObjectId → Except QString Unit
  /-- Behaviour of `_model->session()->AbortCurrentTransaction(timeout)`. -/
  AbortCurrentTransaction : Nat → Except QString Unit

/-- What the queue does that is visible outside it, in order: the signals it emits and
the calls it makes on the file system, the model and the session.  `qDebug` and
`qWarning` output is left out. -/
inductive Event
  | started (filename : QString)
  | progress (bytes : Int)
  | finished
  | mkpath (dir : QString)
  | model_parentObjectId
  | model_downloadFile (filename : QString) (objectId : ObjectId)
  | model_uploadFile (parent : ObjectId) (filename : QString)
  | model_createDirectory (parent : ObjectId) (name : QString)
  | model_setParent (directoryId : ObjectId)
  | model_moveToThread
  | session_AbortCurrentTransaction (timeout : Nat)
  deriving DecidableEq, Repr

/-- The data members of `CommandQueue` (`_directories` as a list of key and value pairs
with distinct keys), and the events so far.  `_completedFilesSize` is a `qint64`: an
integer that every assignment brings back into the range of `qint64` (`wrapQint64`). -/
structure CommandQueue where
  _completedFilesSize : Int
  _directories : List (QString × ObjectId)
  _aborted : Bool
  events : List Event
  deriving DecidableEq, Repr

/-- State after `CommandQueue::CommandQueue(model)`. -/
def CommandQueue.construct : CommandQueue :=
  ⟨0, [], false, []⟩

/-- Model of `_directories[key] = value`. -/
def directoriesInsert (m : List (QString × ObjectId)) (key : QString) (value : ObjectId) :
    List (QString × ObjectId) :=
  (key, value) :: m.filter (fun kv => kv.1 != key)

/-- Model of `_directories.find(key)`: `none` is `_directories.end()`. -/
def directoriesFind (m : List (QString × ObjectId)) (key : QString) : Option ObjectId :=
  (m.find? (fun kv => kv.1 == key)).map (fun kv => kv.2)

/-- Append one event to the events of the state. -/
def emit (q : CommandQueue) (e : Event) : CommandQueue :=
  { q with events := q.events ++ [e] }

/-- Model of `CommandQueue::start`. -/
def start (q : CommandQueue) (filename : QString) : CommandQueue :=
  emit q (Event.started filename)

/-- Whether an integer lies in the range of `qint64`, from `-2^63` to `2^63 - 1`. -/
def fitsQint64 (x : Int) : Bool :=
  decide (-9223372036854775808 ≤ x) && decide (x < 9223372036854775808)

/-- The `qint64` that holds the result of an addition whose exact value is `x`: `x` itself
when it fits, and otherwise, where the addition overflows, the value modulo `2^64` that
the 64-bit two's-complement addition leaves. -/
def wrapQint64 (x : Int) : Int :=
  (x + 9223372036854775808) % 18446744073709551616 - 9223372036854775808

/-- Model of `CommandQueue::addProgress`: `_completedFilesSize += fileSize` is a `qint64`
addition. -/
def addProgress (q : CommandQueue) (fileSize : Int) : CommandQueue :=
  let q1 := { q with _completedFilesSize := wrapQint64 (q._completedFilesSize + fileSize) }
  emit q1 (Event.progress q1._completedFilesSize)

/-- Model of the slot `CommandQueue::onFileProgress(pos, total)`: `_completedFilesSize + pos`
is a `qint64` addition. -/
def onFileProgress (q : CommandQueue) (pos : Int) (_total : Int) : CommandQueue :=
  emit q (Event.progress (wrapQint64 (q._completedFilesSize + pos)))

/-- A transfer call inside `try ... catch(const std::exception &)`: the position signals
emitted during the call reach `onFileProgress`; a thrown exception is only logged, so the
state is the same whether the call returns or throws. -/
def runTransfer (q : CommandQueue) (t : Transfer) : CommandQueue :=
  let q1 := t.positions.foldl (fun acc pt => onFileProgress acc pt.1 pt.2) q
  match t.result with
  | .ok _ => q1
  | .error _ => q1

/-- Model of `CommandQueue::downloadFile`. -/
def downloadFile (w : World) (q : CommandQueue) (filename : QString) (objectId : ObjectId) :
    CommandQueue :=
  if q._aborted then q
  else
    let q1 := emit q (Event.mkpath (w.dirPath filename))
    let q2 := start q1 (w.fileName filename)
    let q3 := emit q2 (Event.model_downloadFile filename objectId)
    let q4 := runTransfer q3 (w.downloadFile filename objectId)
    addProgress q4 (w.size filename)

/-- Model of `CommandQueue::uploadFile`. -/
def uploadFile (w : World) (q : CommandQueue) (filename : QString) : CommandQueue :=
  if q._aborted then q
  else
    let parentPath := w.dirPath filename
    let q1 :=
      if q._directories.isEmpty then
        { emit q Event.model_parentObjectId with
          _directories := directoriesInsert q._directories parentPath w.parentObjectId }
      else q
    let q2 := start q1 (w.fileName filename)
    match directoriesFind q2._directories parentPath with
    | none => q2
    | some parent =>
      let q3 := emit q2 (Event.model_uploadFile parent filename)
      let q4 := runTransfer q3 (w.uploadFile parent filename)
      addProgress q4 (w.size filename)

/-- Model of `CommandQueue::createDirectory`. -/
def createDirectory (w : World) (q : CommandQueue) (srcPath : QString) : CommandQueue :=
  if q._aborted then q
  else
    let path := w.path srcPath
    let parentPath := w.parentPath path
    let q1 :=
      if q._directories.isEmpty then
        { emit q Event.model_parentObjectId with
          _directories := directoriesInsert q._directories parentPath w.parentObjectId }
      else q
    match directoriesFind q1._directories parentPath with
    | none => q1
    | some parent =>
      let q2 := emit q1 (Event.model_createDirectory parent (w.dirName srcPath))
      match w.createDirectory parent (w.dirName srcPath) with
      | .ok dirId => { q2 with _directories := directoriesInsert q2._directories path dirId }
      | .error _ => q2

/-- Model of `CommandQueue::finish`: the exception of `setParent` is caught and only
logged. -/
def finish (w : World) (q : CommandQueue) (directoryId : ObjectId) : CommandQueue :=
  let q1 := emit q (Event.model_setParent directoryId)
  let q2 :=
    match w.setParent directoryId with
    | .ok _ => q1
    | .error _ => q1
  let q3 := emit q2 Event.model_moveToThread
  let q4 := { q3 with _completedFilesSize := 0, _directories := [], _aborted := false }
  emit q4 Event.finished

/-- Model of `CommandQueue::abort`: the flag is set before the session call, whose
exception, if any, leaves the function. -/
def abort (w : World) (q : CommandQueue) : Except QString Unit × CommandQueue :=
  let q1 := { q with _aborted := true }
  let q2 := emit q1 (Event.session_AbortCurrentTransaction 6000)
  (w.AbortCurrentTransaction 6000, q2)

/-- The four command classes with their data members. -/
inductive Command
  | FinishQueue (DirectoryId : ObjectId)
  | UploadFile (Filename : QString)
  | MakeDirectory (Filename : QString)
  | DownloadFile (Filename : QString) (ObjectId : ObjectId)
  deriving DecidableEq, Repr

/-- Model of the `execute` methods of the command classes, reached through
`CommandQueue::execute`. -/
def execute (w : World) (q : CommandQueue) : Command → CommandQueue
  | Command.FinishQueue directoryId => finish w q directoryId
  | Command.UploadFile filename => uploadFile w q filename
  | Command.MakeDirectory filename => createDirectory w q filename
  | Command.DownloadFile filename objectId => downloadFile w q filename objectId

/-- One call on the queue: a command, `abort()`, or a position signal arriving outside a
transfer. -/
inductive Call
  | execute (cmd : Command)
  | abort
  | onFileProgress (pos total : Int)
  deriving DecidableEq, Repr

/-- The state after one call, with the answers `w` of the world. -/
def step (w : World) (q : CommandQueue) : Call → CommandQueue
  | Call.execute cmd => execute w q cmd
  | Call.abort => (abort w q).2
  | Call.onFileProgress pos total => onFileProgress q pos total

/-- A sequence of calls, each with the answers of the world at the time of the call. -/
def run (q : CommandQueue) : List (World × Call) → CommandQueue
  | [] => q
  | (w, c) :: rest => run (step w q c) rest

/-! ### The running byte count in the words of the specification -/

/-- The events a call adds to those of the state `q` it starts from. -/
def addedEvents (q q1 : CommandQueue) : List Event :=
  q1.events.drop q.events.length

/-- A file transfer call on the model. -/
def isTransferEvent : Event → Bool
  | Event.model_downloadFile _ _ => true
  | Event.model_uploadFile _ _ => true
  | _ => false

/-- Whether the call hands a file transfer to the model: a transfer call on the model is
among the events the call adds. -/
def handsTransfer (w : World) (q : CommandQueue) (c : Call) : Bool :=
  (addedEvents q (step w q c)).any isTransferEvent

/-- Size of the file that an upload or download command names. -/
def commandFileSize (w : World) : Call → Int
  | Call.execute (Command.UploadFile filename) => w.size filename
  | Call.execute (Command.DownloadFile filename _) => w.size filename
  | _ => 0

/-- The call is a `FinishQueue` command. -/
def isFinish : Call → Bool
  | Call.execute (Command.FinishQueue _) => true
  | _ => false

/-- The byte count after one more call, in the words of the specification, from the
count `sum` in the state `q`: `finish` resets it to 0, a call that hands a transfer to the
model adds the size of its file, every other call leaves it as it is. -/
def bytesAfter (w : World) (q : CommandQueue) (c : Call) (sum : Int) : Int :=
  if isFinish c then 0
  else if handsTransfer w q c then sum + commandFileSize w c
  else sum

/-- The byte count the specification describes, after the calls of the list, starting
from the count `sum` in the state `q`: an exact sum of file sizes. -/
def bytesHanded : CommandQueue → List (World × Call) → Int → Int
  | _, [], sum => sum
  | q, (w, c) :: rest, sum => bytesHanded (step w q c) rest (bytesAfter w q c sum)

/-- No overflow during the calls of the list: every byte count that `bytesHanded` passes
through fits in a `qint64`. -/
def bytesHandedFit : CommandQueue → List (World × Call) → Int → Bool
  | _, [], _ => true
  | q, (w, c) :: rest, sum =>
    fitsQint64 (bytesAfter w q c sum) &&
      bytesHandedFit (step w q c) rest (bytesAfter w q c sum)

/-- The values carried by the `progress` signals among the events. -/
def progressValues (es : List Event) : List Int :=
  es.filterMap (fun e =>
    match e with
    | Event.progress bytes => some bytes
    | _ => none)

/-- A world for the examples: every file is 10 bytes long and lies in the directory `d`,
a download reports the positions 3 and 7, an upload throws. -/
def worldA : World where
  fileName := fun f => f
  dirPath := fun _ => ['d']
  size := fun _ => 10
  path := fun f => f
  parentPath := fun _ => ['d']
  dirName := fun f => f
  parentObjectId := 5
  downloadFile := fun _ _ => ⟨[(3, 10), (7, 10)], .ok ()⟩
  uploadFile := fun _ _ => ⟨[], .error "device error".toList⟩
  createDirectory := fun _ _ => .ok 9
  setParent := fun _ => .error "device error".toList
  AbortCurrentTransaction := fun _ => .ok ()

end qt

namespace mtp.fuse

/-! ## src/fuse/FuseDirectory.h : `FuseDirectory::Reply` -/

abbrev CharArray := List Char

/-- The arguments of one `fuse_reply_buf(req, buf, size)` call: `buf` is the offset of the
pointer from `data.data()`, `none` for `NULL`. -/
structure ReplyBuf where
  buf : Option Int
  size : Nat
  deriving DecidableEq, Repr

/-- Model of the conversion `(off_t)n` of a `size_t` to the signed 64-bit `off_t`. -/
def toOff (n : Nat) : Int :=
  ((n : Int) + 2 ^ 63) % 2 ^ 64 - 2 ^ 63

/-- Model of the `size_t` subtraction `n - off`, where `off` is converted to `size_t`. -/
def subOff (n : Nat) (off : Int) : Nat :=
  (((n : Int) - off) % 2 ^ 64).toNat

/-- Model of `FuseDirectory::Reply(req, data, off, size)`. -/
def Reply (data : CharArray) (off : Int) (size : Nat) : ReplyBuf :=
  if off ≥ toOff data.length then ⟨none, 0⟩
  else ⟨some off, min size (subOff data.length off)⟩

/-- The bytes that `fuse_reply_buf` sends for a buffer inside `data`. -/
def ReplyBuf.bytes (data : CharArray) (r : ReplyBuf) : CharArray :=
  match r.buf with
  | none => []
  | some o => (data.drop o.toNat).take r.size

end mtp.fuse

namespace cli

/-! ### Splitting on the separator -/

theorem splitOn_slash_cons (c : Char) (cs : List Char) :
    (c :: cs).splitOn '/' =
      if c = '/' then [] :: cs.splitOn '/'
      else (cs.splitOn '/').modifyHead (fun s => c :: s) := by
  unfold List.splitOn
  rw [List.splitOnP_cons]
  by_cases h : c = '/' <;> simp [h]

theorem splitOn_slash_eq (l : List Char) :
    l.splitOn '/' = l.takeWhile (fun x => x != '/') ::
      (match l.dropWhile (fun x => x != '/') with
       | [] => []
       | _ :: t => t.splitOn '/') := by
  induction l with
  | nil => simp [List.splitOn_nil]
  | cons c cs ih =>
    rw [splitOn_slash_cons]
    by_cases h : c = '/'
    · simp [h]
    · rw [if_neg h, ih]
      simp [h, List.takeWhile_cons, List.dropWhile_cons]

theorem splitOn_slash_ne_nil (l : List Char) : l.splitOn '/' ≠ [] := by
  rw [splitOn_slash_eq]; simp

theorem segments_nil : segments [] = [] := by
  simp [segments, List.splitOn_nil]

theorem dropWhile_slash_cases (l : List Char) :
    l.dropWhile (fun x => x != '/') = [] ∨
      ∃ t, l.dropWhile (fun x => x != '/') = '/' :: t := by
  induction l with
  | nil => simp
  | cons c cs ih =>
    by_cases h : c = '/'
    · right; exact ⟨cs, by simp [h]⟩
    · simpa [List.dropWhile_cons, h] using ih

theorem takeWhile_slash_of_dropWhile_nil (l : List Char)
    (h : l.dropWhile (fun x => x != '/') = []) : l.takeWhile (fun x => x != '/') = l := by
  have := List.takeWhile_append_dropWhile (fun x => x != '/') l
  rw [h, List.append_nil] at this
  exact this

/-- Unfolding of `segments` along the loop of `Resolve`: a non-empty path has the text
before its first separator as first segment, and the segments of what follows that
separator as the others. -/
theorem segments_unfold (l : List Char) (hl : l ≠ []) :
    segments l = l.takeWhile (fun x => x != '/') ::
      segments ((l.dropWhile (fun x => x != '/')).drop 1) := by
  rcases dropWhile_slash_cases l with h | ⟨t, h⟩
  · have htw := takeWhile_slash_of_dropWhile_nil l h
    have hs : l.splitOn '/' = [l] := by rw [splitOn_slash_eq, h, htw]
    simp [segments, hs, h, htw, hl, List.splitOn_nil]
  · have hs : l.splitOn '/' = l.takeWhile (fun x => x != '/') :: t.splitOn '/' := by
      rw [splitOn_slash_eq, h]
    have hne := splitOn_slash_ne_nil t
    obtain ⟨a, b, hab⟩ := List.exists_cons_of_ne_nil hne
    simp only [segments, hs, h, List.drop_one, List.tail_cons, hab, List.getLast?_cons_cons,
      List.dropLast_cons₂]
    split <;> rfl

/-! ### The loop of `Resolve` as a walk over the segments -/

theorem take_length_takeWhile (q : Char → Bool) (l : List Char) :
    l.take (l.takeWhile q).length = l.takeWhile q := by
  induction l with
  | nil => simp
  | cons c cs ih =>
    by_cases h : q c <;> simp [List.takeWhile_cons, h, ih]

theorem drop_length_takeWhile (q : Char → Bool) (l : List Char) :
    l.drop (l.takeWhile q).length = l.dropWhile q := by
  induction l with
  | nil => simp
  | cons c cs ih =>
    by_cases h : q c <;> simp [List.takeWhile_cons, List.dropWhile_cons, h, ih]

theorem length_takeWhile_le_length (q : Char → Bool) (l : List Char) :
    (l.takeWhile q).length ≤ l.length := by
  induction l with
  | nil => simp
  | cons c cs ih =>
    by_cases h : q c <;> simp [List.takeWhile_cons, h]
    omega

theorem find_getD (path : List Char) (p : Nat) (hp : p < path.length) :
    (find path '/' p).getD path.length =
      p + ((path.drop p).takeWhile (fun x => x != '/')).length := by
  have hle := length_takeWhile_le_length (fun x => x != '/') (path.drop p)
  rw [List.length_drop] at hle
  unfold find
  simp only []
  split
  · simp
  · simp only [Option.getD_none]; omega

theorem walk_nil (S : MtpSession) (c : List Char) (id : Nat) (tr : List Query) :
    walk S c [] id tr = ⟨.ok id, tr⟩ := by
  simp [walk]

theorem ResolveLoop_eq_walk (S : MtpSession) (path : List Char) (fuel : Nat) :
    ∀ (p : Nat) (h : path.length - p ≤ fuel) (id : Nat) (tr : List Query),
      ResolveLoop S path fuel p h id tr =
        walk S (path.take p) (segments (path.drop p)) id tr := by
  induction fuel with
  | zero =>
    intro p h id tr
    have hd : path.drop p = [] := List.drop_eq_nil_of_le (by omega)
    simp [ResolveLoop, hd, segments_nil, walk]
  | succ fuel ih =>
    intro p h id tr
    unfold ResolveLoop
    by_cases hp : p < path.length
    · have hne : path.drop p ≠ [] := by
        intro h0
        have := congrArg List.length h0
        simp at this
        omega
      rw [dif_pos hp]
      simp only []
      rw [segments_unfold _ hne, walk]
      have hnext := find_getD path p hp
      have hent : substr path p ((find path '/' p).getD path.length - p) =
          (path.drop p).takeWhile (fun x => x != '/') := by
        rw [hnext, Nat.add_sub_cancel_left]
        exact take_length_takeWhile _ _
      have hcons : substr path 0 p = path.take p := by simp [substr]
      rw [hent, hcons]
      rcases hr : resolveEntity S (path.take p)
          ((path.drop p).takeWhile (fun x => x != '/')) id tr with ⟨res, tr1⟩
      cases res with
      | error e => rfl
      | ok id1 =>
        simp only []
        rw [ih]
        have hdrop : path.drop ((find path '/' p).getD path.length + 1) =
            ((path.drop p).dropWhile (fun x => x != '/')).drop 1 := by
          rw [hnext, ← drop_length_takeWhile, List.drop_drop, List.drop_drop]
          congr 1
        rw [hdrop]
        rcases dropWhile_slash_cases (path.drop p) with hd | ⟨t, hd⟩
        · simp [hd, segments_nil, walk]
        · congr 1
          have h1 := List.takeWhile_append_dropWhile (fun x => x != '/') (path.drop p)
          rw [hd] at h1
          have h2 : path = (path.take p ++ (path.drop p).takeWhile (fun x => x != '/') ++
              ['/']) ++ t := by
            have := List.take_append_drop p path
            rw [← h1] at this
            simpa using this.symm
          have hlen : (path.take p ++ (path.drop p).takeWhile (fun x => x != '/') ++
              ['/']).length = (find path '/' p).getD path.length + 1 := by
            rw [hnext]
            simp [List.length_take]
            omega
          have htake : ∀ (l A t : List Char), l = A ++ t → l.take A.length = A := by
            rintro l A t rfl
            simp
          rw [← hlen]
          exact htake path _ t h2
    · rw [dif_neg hp]
      have hd : path.drop p = [] := List.drop_eq_nil_of_le (by omega)
      simp [hd, segments_nil, walk]

theorem Resolve_eq_walk (S : MtpSession) (cd : Nat) (path : List Char) :
    Resolve S cd path = walk S [] (segments path) cd [] := by
  unfold Resolve
  rw [ResolveLoop_eq_walk]
  simp

/-! ### The trace so far and the consumed text do not steer the walk -/

theorem scanObjects_trace (S : MtpSession) (entity : List Char) (objs : List Nat) :
    ∀ tr : List Query, scanObjects S entity objs tr =
      ((scanObjects S entity objs []).1, tr ++ (scanObjects S entity objs []).2) := by
  induction objs with
  | nil => intro tr; simp [scanObjects]
  | cons o rest ih =>
    intro tr
    simp only [scanObjects]
    cases S.GetObjectStringProperty o ObjectProperty.ObjectFilename with
    | error e => simp
    | ok name =>
      by_cases hn : name = entity
      · simp [hn]
      · simp only [hn, if_false]
        rw [ih (tr ++ [_]), ih ([] ++ [_])]
        simp

theorem lookupEntity_trace (S : MtpSession) (c entity : List Char) (id : Nat)
    (tr : List Query) :
    lookupEntity S c entity id tr =
      ⟨(lookupEntity S c entity id []).result, tr ++ (lookupEntity S c entity id []).trace⟩ := by
  simp only [lookupEntity]
  cases S.GetObjectHandles S.AllStorages S.AllFormats id with
  | error e => simp
  | ok objs =>
    simp only []
    rw [scanObjects_trace S entity objs (tr ++ [_]), scanObjects_trace S entity objs ([] ++ [_])]
    rcases scanObjects S entity objs [] with ⟨r, t⟩
    rcases r with e | (_ | o) <;> simp

theorem resolveEntity_trace (S : MtpSession) (c entity : List Char) (id : Nat)
    (tr : List Query) :
    resolveEntity S c entity id tr =
      ⟨(resolveEntity S c entity id []).result,
        tr ++ (resolveEntity S c entity id []).trace⟩ := by
  unfold resolveEntity
  by_cases h1 : entity = ['.']
  · simp [h1]
  · by_cases h2 : entity = ['.', '.']
    · simp only [h2, if_true]
      cases S.GetObjectIntegerProperty id ObjectProperty.ParentObject <;> simp
    · simp only [h1, h2, if_false]
      exact lookupEntity_trace S c entity id tr

theorem walk_trace (S : MtpSession) (segs : List (List Char)) :
    ∀ (c : List Char) (id : Nat) (tr : List Query),
      walk S c segs id tr =
        ⟨(walk S c segs id []).result, tr ++ (walk S c segs id []).trace⟩ := by
  induction segs with
  | nil => intro c id tr; simp [walk]
  | cons seg rest ih =>
    intro c id tr
    simp only [walk]
    rw [resolveEntity_trace S c seg id tr]
    rcases resolveEntity S c seg id [] with ⟨r, t⟩
    cases r with
    | error e => simp
    | ok id1 =>
      simp only []
      rw [ih _ id1 (tr ++ t), ih _ id1 t]
      simp

theorem lookupEntity_consumed (S : MtpSession) (c c' entity : List Char) (id : Nat)
    (tr : List Query) :
    (lookupEntity S c' entity id tr).trace = (lookupEntity S c entity id tr).trace ∧
      (lookupEntity S c' entity id tr).handle = (lookupEntity S c entity id tr).handle := by
  simp only [lookupEntity]
  cases S.GetObjectHandles S.AllStorages S.AllFormats id with
  | error e => simp [Outcome.handle]
  | ok objs =>
    simp only []
    rcases scanObjects S entity objs (tr ++ [_]) with ⟨r, t⟩
    rcases r with e | (_ | o) <;> simp [Outcome.handle]

theorem resolveEntity_consumed (S : MtpSession) (c c' entity : List Char) (id : Nat)
    (tr : List Query) :
    (resolveEntity S c' entity id tr).trace = (resolveEntity S c entity id tr).trace ∧
      (resolveEntity S c' entity id tr).handle = (resolveEntity S c entity id tr).handle := by
  unfold resolveEntity
  by_cases h1 : entity = ['.']
  · simp [h1]
  · by_cases h2 : entity = ['.', '.']
    · simp [h2]
    · simp only [h1, h2, if_false]
      exact lookupEntity_consumed S c c' entity id tr

theorem handle_eq_some {o : Outcome} {id : Nat} :
    o.handle = some id ↔ o.result = .ok id := by
  rcases o with ⟨r, t⟩
  cases r <;> simp [Outcome.handle]

theorem handle_eq_none {o : Outcome} :
    o.handle = none ↔ ∃ e, o.result = .error e := by
  rcases o with ⟨r, t⟩
  cases r <;> simp [Outcome.handle]

theorem walk_consumed (S : MtpSession) (segs : List (List Char)) :
    ∀ (c c' : List Char) (id : Nat) (tr : List Query),
      (walk S c' segs id tr).trace = (walk S c segs id tr).trace ∧
        (walk S c' segs id tr).handle = (walk S c segs id tr).handle := by
  induction segs with
  | nil => intro c c' id tr; simp [walk]
  | cons seg rest ih =>
    intro c c' id tr
    simp only [walk]
    obtain ⟨ht, hh⟩ := resolveEntity_consumed S c c' seg id tr
    rcases h : resolveEntity S c seg id tr with ⟨r, t⟩
    rcases h' : resolveEntity S c' seg id tr with ⟨r', t'⟩
    rw [h, h'] at ht hh
    simp only at ht
    subst ht
    cases r with
    | error e =>
      cases r' with
      | error e' => simp [Outcome.handle]
      | ok id' => simp [Outcome.handle] at hh
    | ok id1 =>
      cases r' with
      | error e' => simp [Outcome.handle] at hh
      | ok id' =>
        simp [Outcome.handle] at hh
        subst hh
        exact ih _ _ _ _

/-- Walking over `xs ++ ys` is walking over `xs` and, when that succeeds, over `ys` from
the handle reached, with the text of `xs` consumed. -/
theorem walk_append (S : MtpSession) (xs ys : List (List Char)) :
    ∀ (c : List Char) (id : Nat) (tr : List Query),
      walk S c (xs ++ ys) id tr =
        match walk S c xs id tr with
        | ⟨.error e, tr1⟩ => ⟨.error e, tr1⟩
        | ⟨.ok id1, tr1⟩ => walk S (c ++ consumedAfter xs) ys id1 tr1 := by
  induction xs with
  | nil => intro c id tr; simp [walk, consumedAfter]
  | cons seg rest ih =>
    intro c id tr
    simp only [List.cons_append, walk]
    rcases resolveEntity S c seg id tr with ⟨r, t⟩
    cases r with
    | error e => rfl
    | ok id1 =>
      simp only []
      show walk S (c ++ seg ++ ['/']) (rest ++ ys) id1 t = _
      rw [ih]
      simp [consumedAfter]

theorem foldl_stepSegment_error (S : MtpSession) (segs : List (List Char))
    (c : List Char) (e : Exception) (tr : List Query) :
    segs.foldl (stepSegment S) ⟨c, ⟨.error e, tr⟩⟩ = ⟨c, ⟨.error e, tr⟩⟩ := by
  induction segs with
  | nil => rfl
  | cons seg rest ih => simpa [List.foldl, stepSegment] using ih

theorem walk_eq_foldl (S : MtpSession) (segs : List (List Char)) :
    ∀ (c : List Char) (id : Nat) (tr : List Query),
      walk S c segs id tr = (segs.foldl (stepSegment S) ⟨c, ⟨.ok id, tr⟩⟩).outcome := by
  induction segs with
  | nil => intro c id tr; simp [walk]
  | cons seg rest ih =>
    intro c id tr
    simp only [walk, List.foldl, stepSegment]
    rcases resolveEntity S c seg id tr with ⟨r, t⟩
    cases r with
    | error e => simp [foldl_stepSegment_error]
    | ok id1 => simp [ih]

/-! ### Segments of a concatenation -/

theorem splitOn_slash_append (p q : List Char) :
    (p ++ '/' :: q).splitOn '/' = p.splitOn '/' ++ q.splitOn '/' := by
  induction p with
  | nil => simp [splitOn_slash_cons, List.splitOn_nil]
  | cons c cs ih =>
    rw [List.cons_append, splitOn_slash_cons, splitOn_slash_cons, ih]
    by_cases h : c = '/'
    · simp [h]
    · simp only [h, if_false]
      obtain ⟨a, b, hab⟩ := List.exists_cons_of_ne_nil (splitOn_slash_ne_nil cs)
      simp [hab]

theorem consumedAfter_splitOn (p : List Char) :
    consumedAfter (p.splitOn '/') = p ++ ['/'] := by
  induction p with
  | nil => simp [consumedAfter, List.splitOn_nil]
  | cons c cs ih =>
    rw [splitOn_slash_cons]
    by_cases h : c = '/'
    · simp only [h, if_true]
      simp only [consumedAfter, List.map_cons, List.flatten_cons] at ih ⊢
      rw [ih]
      simp
    · simp only [h, if_false]
      obtain ⟨a, b, hab⟩ := List.exists_cons_of_ne_nil (splitOn_slash_ne_nil cs)
      rw [hab] at ih ⊢
      simp only [consumedAfter, List.map_cons, List.flatten_cons, List.modifyHead_cons] at ih ⊢
      simp only [List.cons_append, List.append_assoc] at ih ⊢
      rw [ih]

theorem consumedAfter_append (xs ys : List (List Char)) :
    consumedAfter (xs ++ ys) = consumedAfter xs ++ consumedAfter ys := by
  simp [consumedAfter]

theorem splitOn_slash_getLast (p : List Char) (hp : p ≠ [])
    (hlast : p.getLast? ≠ some '/') : (p.splitOn '/').getLast? ≠ some [] := by
  intro h
  obtain ⟨ys, hys⟩ := List.getLast?_eq_some_iff.mp h
  have hc := consumedAfter_splitOn p
  rw [hys, consumedAfter_append] at hc
  have hc' : consumedAfter ys = p := by
    have : consumedAfter ys ++ ['/'] = p ++ ['/'] := by simpa [consumedAfter] using hc
    exact List.append_cancel_right this
  rcases List.eq_nil_or_concat ys with h0 | ⟨L, b, hL⟩
  · subst h0
    exact hp (by simpa [consumedAfter] using hc'.symm)
  · apply hlast
    rw [← hc', hL, List.concat_eq_append, consumedAfter_append]
    simp only [consumedAfter, List.map_cons, List.map_nil, List.flatten_cons, List.flatten_nil,
      List.append_nil]
    rw [← List.append_assoc, List.getLast?_concat]

theorem segments_eq_splitOn (p : List Char) (hp : p ≠ [])
    (hlast : p.getLast? ≠ some '/') : segments p = p.splitOn '/' := by
  simp [segments, splitOn_slash_getLast p hp hlast]

theorem segments_append_slash (p q : List Char) :
    segments (p ++ '/' :: q) = p.splitOn '/' ++ segments q := by
  have hq := splitOn_slash_ne_nil q
  simp only [segments, splitOn_slash_append]
  rw [List.getLast?_append_of_ne_nil _ hq]
  split
  · rw [List.dropLast_append_of_ne_nil _ hq]
  · rfl

theorem Resolve_nil (S : MtpSession) (cd : Nat) : Resolve S cd [] = ⟨.ok cd, []⟩ := by
  rw [Resolve_eq_walk, segments_nil, walk_nil]

/-- Resolution of `consumed ++ q`, where `consumed` is empty or ends with a separator:
resolve `consumed`, then walk over the segments of `q` from the handle reached. -/
theorem Resolve_append (S : MtpSession) (cd : Nat) (consumed q : List Char)
    (hc : consumed = [] ∨ ∃ c0, consumed = c0 ++ ['/']) :
    Resolve S cd (consumed ++ q) =
      match Resolve S cd consumed with
      | ⟨.error e, tr1⟩ => ⟨.error e, tr1⟩
      | ⟨.ok id1, tr1⟩ => walk S consumed (segments q) id1 tr1 := by
  rcases hc with h0 | ⟨c0, h0⟩
  · subst h0
    rw [Resolve_nil]
    simp [Resolve_eq_walk]
  · subst h0
    have h1 : c0 ++ ['/'] ++ q = c0 ++ '/' :: q := by simp
    have h2 : c0 ++ ['/'] = c0 ++ '/' :: [] := rfl
    rw [Resolve_eq_walk, Resolve_eq_walk, h1, segments_append_slash, walk_append]
    conv_rhs => rw [h2, segments_append_slash, segments_nil, List.append_nil]
    rw [consumedAfter_splitOn]
    simp

theorem Resolve_slash (S : MtpSession) (h : Nat) (p q : List Char) (hp : p ≠ [])
    (hlast : p.getLast? ≠ some '/') :
    Resolve S h (p ++ '/' :: q) =
      match Resolve S h p with
      | ⟨.error e, tr1⟩ => ⟨.error e, tr1⟩
      | ⟨.ok id1, tr1⟩ => walk S (p ++ ['/']) (segments q) id1 tr1 := by
  have h1 : p ++ '/' :: q = (p ++ ['/']) ++ q := by simp
  have h2 : Resolve S h (p ++ ['/']) = Resolve S h p := by
    have h3 : p ++ ['/'] = p ++ '/' :: [] := rfl
    rw [Resolve_eq_walk, Resolve_eq_walk, h3, segments_append_slash, segments_nil,
      List.append_nil, segments_eq_splitOn p hp hlast]
  rw [h1, Resolve_append S h (p ++ ['/']) q (Or.inr ⟨p, rfl⟩), h2]

theorem dropWhile_slash_of_not_mem (s : List Char) (hs : '/' ∉ s) :
    s.dropWhile (fun x => x != '/') = [] := by
  induction s with
  | nil => rfl
  | cons c cs ih =>
    have hc : c ≠ '/' := fun h => hs (by simp [h])
    have hcs : '/' ∉ cs := fun h => hs (List.mem_cons_of_mem _ h)
    simp [List.dropWhile_cons, hc, ih hcs]

theorem takeWhile_slash_append (s rest : List Char) (hs : '/' ∉ s)
    (hrest : rest = [] ∨ ∃ r, rest = '/' :: r) :
    (s ++ rest).takeWhile (fun x => x != '/') = s ∧
      (s ++ rest).dropWhile (fun x => x != '/') = rest := by
  induction s with
  | nil =>
    rcases hrest with h | ⟨r, h⟩ <;> simp [h]
  | cons c cs ih =>
    have hc : c ≠ '/' := fun h => hs (by simp [h])
    have hcs : '/' ∉ cs := fun h => hs (List.mem_cons_of_mem _ h)
    simp [List.takeWhile_cons, List.dropWhile_cons, hc, ih hcs]

theorem segments_single (s : List Char) (hs : s ≠ []) (hslash : '/' ∉ s) :
    segments s = [s] := by
  rw [segments_unfold s hs, dropWhile_slash_of_not_mem s hslash,
    takeWhile_slash_of_dropWhile_nil s (dropWhile_slash_of_not_mem s hslash)]
  simp [segments_nil]

theorem segments_cons_rest (s rest : List Char) (hs : '/' ∉ s)
    (hrest : rest = [] ∨ ∃ r, rest = '/' :: r) (hne : s ++ rest ≠ []) :
    segments (s ++ rest) = s :: segments (rest.drop 1) := by
  obtain ⟨h1, h2⟩ := takeWhile_slash_append s rest hs hrest
  rw [segments_unfold _ hne, h1, h2]

/-! ### The scan over the listed children -/

theorem scanObjects_first_match (S : MtpSession) (entity : List Char)
    (before : List Nat) (c : Nat) (after : List Nat)
    (hbefore : ∀ b ∈ before, ∃ n,
      S.GetObjectStringProperty b ObjectProperty.ObjectFilename = .ok n ∧ n ≠ entity)
    (hc : S.GetObjectStringProperty c ObjectProperty.ObjectFilename = .ok entity) :
    ∀ tr : List Query, scanObjects S entity (before ++ c :: after) tr =
      (.ok (some c), tr ++ (before ++ [c]).map
        (fun o => Query.GetObjectStringProperty o ObjectProperty.ObjectFilename)) := by
  induction before with
  | nil => intro tr; simp [scanObjects, hc]
  | cons b bs ih =>
    intro tr
    obtain ⟨n, hn, hne⟩ := hbefore b (by simp)
    have hbs : ∀ b' ∈ bs, ∃ n,
        S.GetObjectStringProperty b' ObjectProperty.ObjectFilename = .ok n ∧ n ≠ entity :=
      fun b' hb' => hbefore b' (List.mem_cons_of_mem _ hb')
    simp only [List.cons_append, scanObjects, hn, hne, if_false]
    have := ih hbs (tr ++ [Query.GetObjectStringProperty b ObjectProperty.ObjectFilename])
    simpa using this

theorem scanObjects_no_match (S : MtpSession) (entity : List Char) (objs : List Nat)
    (hnone : ∀ o ∈ objs, ∃ n,
      S.GetObjectStringProperty o ObjectProperty.ObjectFilename = .ok n ∧ n ≠ entity) :
    ∀ tr : List Query, scanObjects S entity objs tr =
      (.ok none, tr ++ objs.map
        (fun o => Query.GetObjectStringProperty o ObjectProperty.ObjectFilename)) := by
  induction objs with
  | nil => intro tr; simp [scanObjects]
  | cons b bs ih =>
    intro tr
    obtain ⟨n, hn, hne⟩ := hnone b (by simp)
    have hbs : ∀ b' ∈ bs, ∃ n,
        S.GetObjectStringProperty b' ObjectProperty.ObjectFilename = .ok n ∧ n ≠ entity :=
      fun b' hb' => hnone b' (List.mem_cons_of_mem _ hb')
    simp only [scanObjects, hn, hne, if_false]
    rw [ih hbs]
    simp

/-! ### One-segment paths -/

theorem Resolve_single (S : MtpSession) (h : Nat) (s : List Char) (hs : s ≠ [])
    (hslash : '/' ∉ s) : Resolve S h s = resolveEntity S [] s h [] := by
  rw [Resolve_eq_walk, segments_single s hs hslash]
  simp only [walk]
  rcases resolveEntity S [] s h [] with ⟨r, t⟩
  cases r <;> rfl

theorem resolveEntity_name (S : MtpSession) (c s : List Char) (id : Nat) (tr : List Query)
    (h1 : s ≠ ['.']) (h2 : s ≠ ['.', '.']) :
    resolveEntity S c s id tr = lookupEntity S c s id tr := by
  simp [resolveEntity, h1, h2]

theorem walk_handle_trace (S : MtpSession) (c : List Char) (segs : List (List Char))
    (id : Nat) (tr : List Query) :
    (walk S c segs id tr).handle = (walk S [] segs id []).handle ∧
      (walk S c segs id tr).trace = tr ++ (walk S [] segs id []).trace := by
  obtain ⟨ht, hh⟩ := walk_consumed S segs [] c id []
  rw [walk_trace S segs c id tr]
  refine ⟨?_, by rw [ht]⟩
  rw [← hh]
  simp [Outcome.handle]

/-! ## Properties of `Resolve` -/

/-- C1: `Resolve` composes over the separator.  For a non-empty `p` that does not end
with `/`: when resolving `p` from `h` returns `h1`, resolving `p/q` from `h` returns the
handle that resolving `q` from `h1` returns, or fails when that fails, and asks the
device the queries of the first resolution followed by those of the second; when
resolving `p` fails, resolving `p/q` fails with the same exception after the same
queries.  In particular the handle of `a/b` is found by looking up `a` among the
children of `h` and then `b` among the children of that handle. -/
theorem Resolve_composes (S : MtpSession) (h : Nat) (p q : List Char) (hp : p ≠ [])
    (hlast : p.getLast? ≠ some '/') :
    (∀ h1 tr1, Resolve S h p = ⟨.ok h1, tr1⟩ →
        (Resolve S h (p ++ '/' :: q)).handle = (Resolve S h1 q).handle ∧
        (Resolve S h (p ++ '/' :: q)).trace = tr1 ++ (Resolve S h1 q).trace) ∧
    (∀ e tr1, Resolve S h p = ⟨.error e, tr1⟩ →
        Resolve S h (p ++ '/' :: q) = ⟨.error e, tr1⟩) ∧
    (Resolve S h ['a', '/', 'b']).handle =
      ((lookupEntity S [] ['a'] h []).handle).bind
        (fun a => (lookupEntity S [] ['b'] a []).handle) := by
  refine ⟨?_, ?_, ?_⟩
  · intro h1 tr1 hr
    rw [Resolve_slash S h p q hp hlast, hr]
    simp only []
    rw [Resolve_eq_walk S h1 q]
    exact walk_handle_trace S _ _ h1 tr1
  · intro e tr1 hr
    rw [Resolve_slash S h p q hp hlast, hr]
  · have hab : (['a', '/', 'b'] : List Char) = ['a'] ++ '/' :: ['b'] := rfl
    rw [hab, Resolve_slash S h ['a'] ['b'] (by decide) (by decide),
      Resolve_single S h ['a'] (by decide) (by decide),
      resolveEntity_name S [] ['a'] h [] (by decide) (by decide)]
    rcases lookupEntity S [] ['a'] h [] with ⟨r, t⟩
    cases r with
    | error e => simp [Outcome.handle]
    | ok a =>
      simp only []
      rw [(walk_handle_trace S _ _ a t).1, ← Resolve_eq_walk,
        Resolve_single S a ['b'] (by decide) (by decide),
        resolveEntity_name S [] ['b'] a [] (by decide) (by decide)]
      simp [Outcome.handle]

theorem Resolve_composes_witness :
    (['a'] : List Char) ≠ [] ∧ (['a'] : List Char).getLast? ≠ some '/' ∧
      Resolve deviceA 100 ['a'] = ⟨.ok 1, [Query.GetObjectHandles 4294967295 0 100,
        Query.GetObjectStringProperty 1 ObjectProperty.ObjectFilename]⟩ ∧
      (Resolve deviceA 100 ['a', '/', 'c']).handle = (Resolve deviceA 1 ['c']).handle :=
  ⟨by decide, by decide, by decide,
    ((Resolve_composes deviceA 100 ['a'] ['c'] (by decide) (by decide)).1 1
      [Query.GetObjectHandles 4294967295 0 100,
        Query.GetObjectStringProperty 1 ObjectProperty.ObjectFilename] (by decide)).1⟩

/-- C2: first match wins.  For a one-segment path `s` other than `.` and `..`, when the
listing of the children of `h` is `before ++ c :: after`, the filenames of the handles in
`before` differ from `s` and the filename of `c` is `s`, `Resolve` returns `c`; it asks
once for the children of `h`, with the `AllStorages` and `AllFormats` filters, and then
for the filenames of the handles of `before` and of `c`, in that order, and for nothing
about the handles of `after`. -/
theorem Resolve_first_match (S : MtpSession) (h : Nat) (s : List Char)
    (before : List Nat) (c : Nat) (after : List Nat)
    (hs : s ≠ []) (hslash : '/' ∉ s) (hdot : s ≠ ['.']) (hdotdot : s ≠ ['.', '.'])
    (hlist : S.GetObjectHandles S.AllStorages S.AllFormats h = .ok (before ++ c :: after))
    (hbefore : ∀ b ∈ before, ∃ n,
      S.GetObjectStringProperty b ObjectProperty.ObjectFilename = .ok n ∧ n ≠ s)
    (hc : S.GetObjectStringProperty c ObjectProperty.ObjectFilename = .ok s) :
    Resolve S h s = ⟨.ok c,
      Query.GetObjectHandles S.AllStorages S.AllFormats h ::
        (before ++ [c]).map
          (fun o => Query.GetObjectStringProperty o ObjectProperty.ObjectFilename)⟩ := by
  rw [Resolve_single S h s hs hslash, resolveEntity_name S [] s h [] hdot hdotdot]
  simp only [lookupEntity, hlist]
  rw [scanObjects_first_match S s before c after hbefore hc]
  simp

theorem Resolve_first_match_witness :
    (['b'] : List Char) ≠ [] ∧ '/' ∉ (['b'] : List Char) ∧
      Resolve deviceA 100 ['b'] = ⟨.ok 2,
        [Query.GetObjectHandles 4294967295 0 100,
          Query.GetObjectStringProperty 1 ObjectProperty.ObjectFilename,
          Query.GetObjectStringProperty 2 ObjectProperty.ObjectFilename]⟩ :=
  ⟨by decide, by decide,
    Resolve_first_match deviceA 100 ['b'] [1] 2 [] (by decide) (by decide) (by decide)
      (by decide) (by decide)
      (by
        intro b hb
        rw [List.mem_singleton] at hb
        subst hb
        exact ⟨['a'], by decide, by decide⟩)
      (by decide)⟩

/-- C3: resolving `..` from `h` asks the device for the parent-object property of `h` and
for nothing else; it returns the root handle when that property is 0 and the value of the
property otherwise, and fails with the exception of that query when the query fails. -/
theorem Resolve_dotdot (S : MtpSession) (h : Nat) :
    Resolve S h ['.', '.'] =
      match S.GetObjectIntegerProperty h ObjectProperty.ParentObject with
      | .ok parent =>
        ⟨.ok (if parent = 0 then S.Root else parent),
          [Query.GetObjectIntegerProperty h ObjectProperty.ParentObject]⟩
      | .error e => ⟨.error e, [Query.GetObjectIntegerProperty h ObjectProperty.ParentObject]⟩ := by
  rw [Resolve_single S h ['.', '.'] (by decide) (by decide)]
  simp only [resolveEntity]
  cases S.GetObjectIntegerProperty h ObjectProperty.ParentObject <;> simp

/-- C4 as stated fails: on `deviceDup` the root has a child named `a` (handle 2) whose
parent-object property is 0, `Resolve(root, "a")` returns the handle 1, and
`Resolve(root, "a/../a")` fails. -/
theorem Resolve_up_and_back_counterexample :
    deviceDup.GetObjectHandles deviceDup.AllStorages deviceDup.AllFormats deviceDup.Root
        = .ok [1, 2] ∧
      deviceDup.GetObjectStringProperty 2 ObjectProperty.ObjectFilename = .ok ['a'] ∧
      deviceDup.GetObjectIntegerProperty 2 ObjectProperty.ParentObject = .ok 0 ∧
      (Resolve deviceDup deviceDup.Root ['a']).result = .ok 1 ∧
      (Resolve deviceDup deviceDup.Root ['a', '/', '.', '.', '/', 'a']).result =
        .error (Exception.runtime_error "could not find a in path a/../".toList) := by
  decide

/-- C4, amended: when `Resolve(root, s)` for a one-segment name `s` returns the handle
`a` (the first child of the root with that filename) and the parent-object property of
`a` is 0 or the root handle, `Resolve(root, s/../s)` succeeds and returns `a`. -/
theorem Resolve_up_and_back (S : MtpSession) (s : List Char) (a parent : Nat)
    (tr : List Query) (hs : s ≠ []) (hslash : '/' ∉ s)
    (hres : Resolve S S.Root s = ⟨.ok a, tr⟩)
    (hparent : S.GetObjectIntegerProperty a ObjectProperty.ParentObject = .ok parent)
    (hroot : parent = 0 ∨ parent = S.Root) :
    (Resolve S S.Root (s ++ '/' :: '.' :: '.' :: '/' :: s)).result = .ok a := by
  have hlast : s.getLast? ≠ some '/' := by
    intro h
    exact hslash (List.mem_of_mem_getLast? h)
  have hseg : segments ('.' :: '.' :: '/' :: s) = [['.', '.'], s] := by
    have h1 : ('.' :: '.' :: '/' :: s) = ['.', '.'] ++ '/' :: s := rfl
    have h2 : (['.', '.'] : List Char).splitOn '/' = [['.', '.']] := by decide
    rw [h1, segments_append_slash, segments_single s hs hslash, h2]
    rfl
  have hup : (if parent = 0 then S.Root else parent) = S.Root := by
    rcases hroot with h | h
    · simp [h]
    · split
      · rfl
      · exact h
  have hstep : walk S (s ++ ['/']) [['.', '.'], s] a tr =
      walk S (s ++ ['/'] ++ ['.', '.'] ++ ['/']) [s] S.Root
        (tr ++ [Query.GetObjectIntegerProperty a ObjectProperty.ParentObject]) := by
    rw [walk]
    simp [resolveEntity, hparent, hup]
  have hback : walk S [] [s] S.Root [] = ⟨.ok a, tr⟩ := by
    rw [← segments_single s hs hslash, ← Resolve_eq_walk]
    exact hres
  rw [Resolve_slash S S.Root s _ hs hlast, hres]
  simp only [hseg]
  rw [hstep]
  apply handle_eq_some.mp
  rw [(walk_handle_trace S _ [s] S.Root _).1, hback]
  rfl

theorem Resolve_up_and_back_witness :
    (['a'] : List Char) ≠ [] ∧ '/' ∉ (['a'] : List Char) ∧
      (Resolve deviceA deviceA.Root ['a', '/', '.', '.', '/', 'a']).result = .ok 1 :=
  ⟨by decide, by decide,
    Resolve_up_and_back deviceA ['a'] 1 0
      [Query.GetObjectHandles 4294967295 0 100,
        Query.GetObjectStringProperty 1 ObjectProperty.ObjectFilename]
      (by decide) (by decide) (by decide) (by decide) (by decide)⟩

/-- C5: failure at the first unmatched name.  Let the path be `consumed ++ seg ++ rest`,
where `consumed` is empty or ends with a separator, `seg` is a segment the loop visits
(no separator inside, followed by a separator or by the end of the path, not the empty
piece after the last character) other than `.` and `..`.  When resolving `consumed`
succeeds with the handle `id` and none of the children listed for `id` has the filename
`seg`, `Resolve` throws the runtime error whose message names `seg` and ends with
`consumed`, the part of the path before the failing segment; nothing after `seg` is
looked at.  With `consumed` empty, as for the path `missing`, that part is the empty
string. -/
theorem Resolve_not_found (S : MtpSession) (cd : Nat) (consumed seg rest : List Char)
    (id : Nat) (tr : List Query) (objs : List Nat)
    (hc : consumed = [] ∨ ∃ c0, consumed = c0 ++ ['/'])
    (hslash : '/' ∉ seg) (hdot : seg ≠ ['.']) (hdotdot : seg ≠ ['.', '.'])
    (hrest : rest = [] ∨ ∃ r, rest = '/' :: r) (hne : seg ++ rest ≠ [])
    (hpre : Resolve S cd consumed = ⟨.ok id, tr⟩)
    (hlist : S.GetObjectHandles S.AllStorages S.AllFormats id = .ok objs)
    (hnone : ∀ o ∈ objs, ∃ n,
      S.GetObjectStringProperty o ObjectProperty.ObjectFilename = .ok n ∧ n ≠ seg) :
    Resolve S cd (consumed ++ (seg ++ rest)) =
      ⟨.error (Exception.runtime_error
          ("could not find ".toList ++ seg ++ " in path ".toList ++ consumed)),
        tr ++ Query.GetObjectHandles S.AllStorages S.AllFormats id ::
          objs.map (fun o => Query.GetObjectStringProperty o ObjectProperty.ObjectFilename)⟩ := by
  rw [Resolve_append S cd consumed (seg ++ rest) hc, hpre]
  simp only []
  rw [segments_cons_rest seg rest hslash hrest hne, walk,
    resolveEntity_name S consumed seg id tr hdot hdotdot]
  simp only [lookupEntity, hlist]
  rw [scanObjects_no_match S seg objs hnone]
  simp

theorem Resolve_not_found_witness :
    '/' ∉ "missing".toList ∧ "missing".toList ++ [] ≠ [] ∧
      Resolve deviceA deviceA.Root [] = ⟨.ok 100, []⟩ ∧
      Resolve deviceA deviceA.Root ([] ++ ("missing".toList ++ [])) =
        ⟨.error (Exception.runtime_error "could not find missing in path ".toList),
          [Query.GetObjectHandles 4294967295 0 100,
            Query.GetObjectStringProperty 1 ObjectProperty.ObjectFilename,
            Query.GetObjectStringProperty 2 ObjectProperty.ObjectFilename]⟩ :=
  ⟨by decide, by decide, by decide,
    Resolve_not_found deviceA deviceA.Root [] "missing".toList [] 100 [] [1, 2]
      (Or.inl rfl) (by decide) (by decide) (by decide) (Or.inl rfl) (by decide) (by decide)
      (by decide)
      (by
        intro o ho
        rcases List.mem_cons.mp ho with h | h
        · subst h
          exact ⟨['a'], by decide, by decide⟩
        · rw [List.mem_singleton] at h
          subst h
          exact ⟨['b'], by decide, by decide⟩)⟩

/-- C6: the segment `.` is a no-op.  Resolving `.` from `h` returns `h` and asks the
device nothing; resolving `./p` from `h` asks the device the same queries as resolving
`p` from `h` and returns the same handle or fails when that fails. -/
theorem Resolve_dot (S : MtpSession) (h : Nat) :
    Resolve S h ['.'] = ⟨.ok h, []⟩ ∧
      ∀ p : List Char,
        (Resolve S h ('.' :: '/' :: p)).handle = (Resolve S h p).handle ∧
          (Resolve S h ('.' :: '/' :: p)).trace = (Resolve S h p).trace := by
  have h1 : Resolve S h ['.'] = ⟨.ok h, []⟩ := by
    rw [Resolve_single S h ['.'] (by decide) (by decide)]
    simp [resolveEntity]
  refine ⟨h1, ?_⟩
  intro p
  have h2 : ('.' :: '/' :: p) = ['.'] ++ '/' :: p := rfl
  rw [h2, Resolve_slash S h ['.'] p (by decide) (by decide), h1]
  simp only []
  rw [Resolve_eq_walk S h p]
  simpa using walk_handle_trace S (['.'] ++ ['/']) (segments p) h []

/-- C7 as stated fails: on `deviceA` the path `a/` resolves to the handle 1, while the
fold over every piece of `a/`, the empty last piece included, fails looking for a child
with the empty filename. -/
theorem Resolve_fold_counterexample :
    specSegments ['a', '/'] = [['a'], []] ∧
      (Resolve deviceA 100 ['a', '/']).result = .ok 1 ∧
      (foldSegments deviceA 100 (specSegments ['a', '/'])).result =
        .error (Exception.runtime_error "could not find  in path a/".toList) := by
  decide

/-- C7, amended: `Resolve` is the left-to-right fold of the per-segment step over the
pieces of the path between separators, empty pieces included, except that the empty
piece after the last character of the path (the empty path, or what follows a final
separator) is not a segment.  For a path that does not end with a separator these are all
the pieces of the path; for a path that ends with one they are all but the last. -/
theorem Resolve_eq_fold (S : MtpSession) (cd : Nat) (path : List Char) :
    Resolve S cd path = foldSegments S cd (segments path) ∧
      (path.getLast? ≠ some '/' → segments path = specSegments path) ∧
      (path.getLast? = some '/' → segments path = (specSegments path).dropLast) := by
  refine ⟨?_, ?_, ?_⟩
  · rw [Resolve_eq_walk, walk_eq_foldl]
    rfl
  · intro hlast
    by_cases hp : path = []
    · subst hp
      simp [segments_nil, specSegments]
    · rw [segments_eq_splitOn path hp hlast]
      simp [specSegments, hp]
  · intro hlast
    obtain ⟨p, hp⟩ := List.getLast?_eq_some_iff.mp hlast
    have h1 : path = p ++ '/' :: [] := hp
    have hne : p ++ '/' :: [] ≠ [] := by simp
    rw [h1, segments_append_slash, segments_nil, List.append_nil]
    simp only [specSegments, hne, if_false]
    rw [splitOn_slash_append, List.splitOn_nil, List.dropLast_concat]

theorem Resolve_eq_fold_witness :
    (['a', '/', 'c'] : List Char).getLast? ≠ some '/' ∧
      segments ['a', '/', 'c'] = specSegments ['a', '/', 'c'] ∧
      (['a', '/'] : List Char).getLast? = some '/' ∧
      segments ['a', '/'] = (specSegments ['a', '/']).dropLast :=
  ⟨by decide, (Resolve_eq_fold deviceA 100 ['a', '/', 'c']).2.1 (by decide), by decide,
    (Resolve_eq_fold deviceA 100 ['a', '/']).2.2 (by decide)⟩

end cli

namespace qt

/-! ## Properties of `CommandQueue` -/

theorem wrapQint64_of_fits (x : Int) (h : fitsQint64 x = true) : wrapQint64 x = x := by
  simp only [fitsQint64, Bool.and_eq_true, decide_eq_true_eq] at h
  unfold wrapQint64
  omega

theorem foldl_onFileProgress (positions : List (Int × Int)) :
    ∀ q : CommandQueue,
      positions.foldl (fun acc pt => onFileProgress acc pt.1 pt.2) q =
        { q with events := q.events ++
            positions.map (fun pt =>
              Event.progress (wrapQint64 (q._completedFilesSize + pt.1))) } := by
  induction positions with
  | nil => intro q; simp
  | cons pt rest ih =>
    intro q
    rw [List.foldl_cons, ih]
    simp [onFileProgress, emit]

theorem runTransfer_eq (q : CommandQueue) (t : Transfer) :
    runTransfer q t =
      { q with events := q.events ++
          t.positions.map (fun pt =>
            Event.progress (wrapQint64 (q._completedFilesSize + pt.1))) } := by
  unfold runTransfer
  simp only [foldl_onFileProgress]
  cases t.result <;> rfl

theorem downloadFile_eq (w : World) (q : CommandQueue) (f : QString) (id : ObjectId)
    (h : q._aborted = false) :
    downloadFile w q f id =
      { q with
        _completedFilesSize := wrapQint64 (q._completedFilesSize + w.size f)
        events := q.events ++
          ([Event.mkpath (w.dirPath f), Event.started (w.fileName f),
              Event.model_downloadFile f id] ++
            (w.downloadFile f id).positions.map
              (fun pt => Event.progress (wrapQint64 (q._completedFilesSize + pt.1))) ++
            [Event.progress (wrapQint64 (q._completedFilesSize + w.size f))]) } := by
  simp [downloadFile, h, runTransfer_eq, addProgress, start, emit]

theorem uploadFile_aborted (w : World) (q : CommandQueue) (f : QString)
    (h : q._aborted = true) : uploadFile w q f = q := by
  simp [uploadFile, h]

theorem uploadFile_first (w : World) (q : CommandQueue) (f : QString)
    (h : q._aborted = false) (hd : q._directories = []) :
    uploadFile w q f =
      { q with
        _completedFilesSize := wrapQint64 (q._completedFilesSize + w.size f)
        _directories := [(w.dirPath f, w.parentObjectId)]
        events := q.events ++
          ([Event.model_parentObjectId, Event.started (w.fileName f),
              Event.model_uploadFile w.parentObjectId f] ++
            (w.uploadFile w.parentObjectId f).positions.map
              (fun pt => Event.progress (wrapQint64 (q._completedFilesSize + pt.1))) ++
            [Event.progress (wrapQint64 (q._completedFilesSize + w.size f))]) } := by
  simp [uploadFile, h, hd, directoriesInsert, directoriesFind, runTransfer_eq, addProgress,
    start, emit]

theorem uploadFile_known (w : World) (q : CommandQueue) (f : QString) (parent : ObjectId)
    (h : q._aborted = false) (hd : q._directories ≠ [])
    (hp : directoriesFind q._directories (w.dirPath f) = some parent) :
    uploadFile w q f =
      { q with
        _completedFilesSize := wrapQint64 (q._completedFilesSize + w.size f)
        events := q.events ++
          ([Event.started (w.fileName f), Event.model_uploadFile parent f] ++
            (w.uploadFile parent f).positions.map
              (fun pt => Event.progress (wrapQint64 (q._completedFilesSize + pt.1))) ++
            [Event.progress (wrapQint64 (q._completedFilesSize + w.size f))]) } := by
  have hd' : q._directories.isEmpty = false := by
    cases hq : q._directories with
    | nil => exact absurd hq hd
    | cons a b => rfl
  simp [uploadFile, h, hd', hp, runTransfer_eq, addProgress, start, emit]

theorem uploadFile_unknown (w : World) (q : CommandQueue) (f : QString)
    (h : q._aborted = false) (hd : q._directories ≠ [])
    (hp : directoriesFind q._directories (w.dirPath f) = none) :
    uploadFile w q f = { q with events := q.events ++ [Event.started (w.fileName f)] } := by
  have hd' : q._directories.isEmpty = false := by
    cases hq : q._directories with
    | nil => exact absurd hq hd
    | cons a b => rfl
  simp [uploadFile, h, hd', hp, start, emit]

theorem createDirectory_size (w : World) (q : CommandQueue) (srcPath : QString) :
    (createDirectory w q srcPath)._completedFilesSize = q._completedFilesSize ∧
      (addedEvents q (createDirectory w q srcPath)).any isTransferEvent = false ∧
      progressValues (addedEvents q (createDirectory w q srcPath)) = [] := by
  unfold createDirectory addedEvents
  by_cases h : q._aborted = true
  · simp [h, progressValues]
  · by_cases hd : q._directories.isEmpty = true
    · simp only [h, hd, if_true, if_false]
      repeat' split
      all_goals simp [emit, progressValues, isTransferEvent]
    · simp only [h, hd, if_false]
      repeat' split
      all_goals simp [emit, progressValues, isTransferEvent]

theorem finish_eq (w : World) (q : CommandQueue) (directoryId : ObjectId) :
    finish w q directoryId =
      ⟨0, [], false, q.events ++ [Event.model_setParent directoryId,
        Event.model_moveToThread, Event.finished]⟩ := by
  unfold finish
  cases w.setParent directoryId <;> simp [emit]

theorem addedEvents_self (q : CommandQueue) : addedEvents q q = [] := by
  simp [addedEvents]

theorem addedEvents_append (q q1 : CommandQueue) (added : List Event)
    (h : q1.events = q.events ++ added) : addedEvents q q1 = added := by
  simp [addedEvents, h]

theorem progressValues_append (xs ys : List Event) :
    progressValues (xs ++ ys) = progressValues xs ++ progressValues ys := by
  simp [progressValues]

theorem progressValues_map_progress (vals : List Int) :
    progressValues (vals.map Event.progress) = vals := by
  induction vals with
  | nil => rfl
  | cons v vs ih =>
    simp only [progressValues, List.map_cons, List.filterMap_cons] at ih ⊢
    rw [ih]

/-- The position reports of a transfer, when none of them overflows. -/
theorem map_wrap_positions (sum : Int) (positions : List (Int × Int))
    (h : ∀ pt ∈ positions, fitsQint64 (sum + pt.1) = true) :
    positions.map (fun pt => wrapQint64 (sum + pt.1)) =
      positions.map (fun pt => sum + pt.1) := by
  apply List.map_congr_left
  intro pt hpt
  exact wrapQint64_of_fits _ (h pt hpt)

theorem downloadFile_added (w : World) (q : CommandQueue) (f : QString) (id : ObjectId)
    (h : q._aborted = false) :
    addedEvents q (downloadFile w q f id) =
      [Event.mkpath (w.dirPath f), Event.started (w.fileName f),
          Event.model_downloadFile f id] ++
        ((w.downloadFile f id).positions.map
          (fun pt => wrapQint64 (q._completedFilesSize + pt.1))).map Event.progress ++
        [Event.progress (wrapQint64 (q._completedFilesSize + w.size f))] := by
  apply addedEvents_append
  rw [downloadFile_eq w q f id h]
  simp

theorem uploadFile_first_added (w : World) (q : CommandQueue) (f : QString)
    (h : q._aborted = false) (hd : q._directories = []) :
    addedEvents q (uploadFile w q f) =
      [Event.model_parentObjectId, Event.started (w.fileName f),
          Event.model_uploadFile w.parentObjectId f] ++
        ((w.uploadFile w.parentObjectId f).positions.map
          (fun pt => wrapQint64 (q._completedFilesSize + pt.1))).map Event.progress ++
        [Event.progress (wrapQint64 (q._completedFilesSize + w.size f))] := by
  apply addedEvents_append
  rw [uploadFile_first w q f h hd]
  simp

theorem uploadFile_known_added (w : World) (q : CommandQueue) (f : QString)
    (parent : ObjectId) (h : q._aborted = false) (hd : q._directories ≠ [])
    (hp : directoriesFind q._directories (w.dirPath f) = some parent) :
    addedEvents q (uploadFile w q f) =
      [Event.started (w.fileName f), Event.model_uploadFile parent f] ++
        ((w.uploadFile parent f).positions.map
          (fun pt => wrapQint64 (q._completedFilesSize + pt.1))).map Event.progress ++
        [Event.progress (wrapQint64 (q._completedFilesSize + w.size f))] := by
  apply addedEvents_append
  rw [uploadFile_known w q f parent h hd hp]
  simp

theorem uploadFile_unknown_added (w : World) (q : CommandQueue) (f : QString)
    (h : q._aborted = false) (hd : q._directories ≠ [])
    (hp : directoriesFind q._directories (w.dirPath f) = none) :
    addedEvents q (uploadFile w q f) = [Event.started (w.fileName f)] := by
  apply addedEvents_append
  rw [uploadFile_unknown w q f h hd hp]

/-- The byte count after one call: `finish` resets it, a call that hands a transfer to
the model adds the size of its file in `qint64` arithmetic, any other call leaves it. -/
theorem step_size (w : World) (q : CommandQueue) (c : Call) :
    (step w q c)._completedFilesSize =
      if isFinish c then 0
      else if handsTransfer w q c then
        wrapQint64 (q._completedFilesSize + commandFileSize w c)
      else q._completedFilesSize := by
  cases c with
  | abort => simp [step, abort, emit, isFinish, handsTransfer, addedEvents, isTransferEvent]
  | onFileProgress pos total =>
    simp [step, onFileProgress, emit, isFinish, handsTransfer, addedEvents, isTransferEvent]
  | execute cmd =>
    cases cmd with
    | FinishQueue d => simp [step, execute, finish_eq, isFinish]
    | MakeDirectory f =>
      obtain ⟨h1, h2, _⟩ := createDirectory_size w q f
      simp [step, execute, isFinish, handsTransfer, h1, h2]
    | DownloadFile f id =>
      by_cases h : q._aborted = true
      · have hq : downloadFile w q f id = q := by simp [downloadFile, h]
        simp [step, execute, isFinish, handsTransfer, hq, addedEvents_self]
      · have h' : q._aborted = false := by simpa using h
        have hadd := downloadFile_added w q f id h'
        simp only [step, execute, isFinish, handsTransfer, hadd]
        rw [downloadFile_eq w q f id h']
        simp [isTransferEvent, commandFileSize]
    | UploadFile f =>
      by_cases h : q._aborted = true
      · simp [step, execute, isFinish, handsTransfer, uploadFile_aborted w q f h,
          addedEvents_self]
      · have h' : q._aborted = false := by simpa using h
        by_cases hd : q._directories = []
        · have hadd := uploadFile_first_added w q f h' hd
          simp only [step, execute, isFinish, handsTransfer, hadd]
          rw [uploadFile_first w q f h' hd]
          simp [isTransferEvent, commandFileSize]
        · cases hp : directoriesFind q._directories (w.dirPath f) with
          | none =>
            have hadd := uploadFile_unknown_added w q f h' hd hp
            simp only [step, execute, isFinish, handsTransfer, hadd]
            rw [uploadFile_unknown w q f h' hd hp]
            simp [isTransferEvent]
          | some parent =>
            have hadd := uploadFile_known_added w q f parent h' hd hp
            simp only [step, execute, isFinish, handsTransfer, hadd]
            rw [uploadFile_known w q f parent h' hd hp]
            simp [isTransferEvent, commandFileSize]

theorem step_size_of_fits (w : World) (q : CommandQueue) (c : Call)
    (h : fitsQint64 (bytesAfter w q c q._completedFilesSize) = true) :
    (step w q c)._completedFilesSize = bytesAfter w q c q._completedFilesSize := by
  rw [step_size]
  unfold bytesAfter at h ⊢
  by_cases h1 : isFinish c = true
  · simp [h1]
  · by_cases h2 : handsTransfer w q c = true
    · simp only [h1, h2, if_true, if_false] at h ⊢
      exact wrapQint64_of_fits _ h
    · simp [h1, h2]

theorem run_size (calls : List (World × Call)) :
    ∀ q : CommandQueue, bytesHandedFit q calls q._completedFilesSize = true →
      (run q calls)._completedFilesSize = bytesHanded q calls q._completedFilesSize := by
  induction calls with
  | nil => intro q _; rfl
  | cons wc rest ih =>
    intro q hfit
    obtain ⟨w, c⟩ := wc
    simp only [bytesHandedFit, Bool.and_eq_true] at hfit
    have hstep := step_size_of_fits w q c hfit.1
    simp only [run, bytesHanded]
    rw [← hstep] at hfit ⊢
    exact ih _ hfit.2

theorem handsTransfer_of_added (w : World) (q : CommandQueue) (c : Call)
    (added : List Event) (h : addedEvents q (step w q c) = added) :
    handsTransfer w q c = added.any isTransferEvent := by
  simp [handsTransfer, h]

/-- C8: the progress of the queue is a running byte count, as long as the `qint64`
additions do not overflow.  After any sequence of calls (commands, `abort`, position
signals), from the constructed queue or from any state, during which the count of the
specification fits in a `qint64`, the cumulative size is that count: reset to 0 by
`finish`, increased by the size of the file at every upload or download that hands its
transfer to the model, left alone by every other call.  A download that is not aborted
and an upload whose parent directory is known hand their transfer to the model, whatever
the transfer returns or throws; when the sums fit, the `progress` signals they emit are
the cumulative size before the command plus each position reported during the transfer,
and last the new cumulative size.  An aborted command changes nothing, an upload whose
parent directory is unknown emits no `progress` and leaves the sum; a position signal
emits the sum plus the position and leaves the sum; `finish` sets the sum to 0. -/
theorem progress_running_byte_count (w : World) (q : CommandQueue) :
    (∀ calls : List (World × Call),
        bytesHandedFit CommandQueue.construct calls 0 = true →
        (run CommandQueue.construct calls)._completedFilesSize =
          bytesHanded CommandQueue.construct calls 0) ∧
    (∀ calls : List (World × Call),
        bytesHandedFit q calls q._completedFilesSize = true →
        (run q calls)._completedFilesSize = bytesHanded q calls q._completedFilesSize) ∧
    (∀ (f : QString) (id : ObjectId), q._aborted = false →
        fitsQint64 (q._completedFilesSize + w.size f) = true →
        (∀ pt ∈ (w.downloadFile f id).positions,
          fitsQint64 (q._completedFilesSize + pt.1) = true) →
        handsTransfer w q (Call.execute (Command.DownloadFile f id)) = true ∧
        (downloadFile w q f id)._completedFilesSize = q._completedFilesSize + w.size f ∧
        progressValues (addedEvents q (downloadFile w q f id)) =
          (w.downloadFile f id).positions.map (fun pt => q._completedFilesSize + pt.1) ++
            [q._completedFilesSize + w.size f]) ∧
    (∀ (f : QString) (parent : ObjectId), q._aborted = false →
        (q._directories = [] ∧ parent = w.parentObjectId ∨
          q._directories ≠ [] ∧
            directoriesFind q._directories (w.dirPath f) = some parent) →
        fitsQint64 (q._completedFilesSize + w.size f) = true →
        (∀ pt ∈ (w.uploadFile parent f).positions,
          fitsQint64 (q._completedFilesSize + pt.1) = true) →
        handsTransfer w q (Call.execute (Command.UploadFile f)) = true ∧
        (uploadFile w q f)._completedFilesSize = q._completedFilesSize + w.size f ∧
        progressValues (addedEvents q (uploadFile w q f)) =
          (w.uploadFile parent f).positions.map (fun pt => q._completedFilesSize + pt.1) ++
            [q._completedFilesSize + w.size f]) ∧
    (∀ (f : QString) (id : ObjectId), q._aborted = true →
        downloadFile w q f id = q ∧ uploadFile w q f = q) ∧
    (∀ f : QString, q._aborted = false → q._directories ≠ [] →
        directoriesFind q._directories (w.dirPath f) = none →
        handsTransfer w q (Call.execute (Command.UploadFile f)) = false ∧
        (uploadFile w q f)._completedFilesSize = q._completedFilesSize ∧
        progressValues (addedEvents q (uploadFile w q f)) = []) ∧
    (∀ pos total : Int,
        (onFileProgress q pos total)._completedFilesSize = q._completedFilesSize ∧
        (fitsQint64 (q._completedFilesSize + pos) = true →
          (onFileProgress q pos total).events =
            q.events ++ [Event.progress (q._completedFilesSize + pos)])) ∧
    (∀ directoryId : ObjectId, (finish w q directoryId)._completedFilesSize = 0) := by
  refine ⟨fun calls h => run_size calls _ h, fun calls h => run_size calls q h,
    ?_, ?_, ?_, ?_, ?_, ?_⟩
  · intro f id h hfit hpos
    have hadd := downloadFile_added w q f id h
    rw [map_wrap_positions _ _ hpos, wrapQint64_of_fits _ hfit] at hadd
    refine ⟨?_, ?_, ?_⟩
    · rw [handsTransfer_of_added w q (Call.execute (Command.DownloadFile f id)) _ hadd]
      simp [isTransferEvent]
    · rw [downloadFile_eq w q f id h]
      exact wrapQint64_of_fits _ hfit
    · rw [hadd, progressValues_append, progressValues_append, progressValues_map_progress]
      simp [progressValues]
  · intro f parent h hcase hfit hpos
    rcases hcase with ⟨hd, hp⟩ | ⟨hd, hp⟩
    · subst hp
      have hadd := uploadFile_first_added w q f h hd
      rw [map_wrap_positions _ _ hpos, wrapQint64_of_fits _ hfit] at hadd
      refine ⟨?_, ?_, ?_⟩
      · rw [handsTransfer_of_added w q (Call.execute (Command.UploadFile f)) _ hadd]
        simp [isTransferEvent]
      · rw [uploadFile_first w q f h hd]
        exact wrapQint64_of_fits _ hfit
      · rw [hadd, progressValues_append, progressValues_append, progressValues_map_progress]
        simp [progressValues]
    · have hadd := uploadFile_known_added w q f parent h hd hp
      rw [map_wrap_positions _ _ hpos, wrapQint64_of_fits _ hfit] at hadd
      refine ⟨?_, ?_, ?_⟩
      · rw [handsTransfer_of_added w q (Call.execute (Command.UploadFile f)) _ hadd]
        simp [isTransferEvent]
      · rw [uploadFile_known w q f parent h hd hp]
        exact wrapQint64_of_fits _ hfit
      · rw [hadd, progressValues_append, progressValues_append, progressValues_map_progress]
        simp [progressValues]
  · intro f id h
    exact ⟨by simp [downloadFile, h], uploadFile_aborted w q f h⟩
  · intro f h hd hp
    have hadd := uploadFile_unknown_added w q f h hd hp
    refine ⟨?_, ?_, ?_⟩
    · rw [handsTransfer_of_added w q (Call.execute (Command.UploadFile f)) _ hadd]
      simp [isTransferEvent]
    · rw [uploadFile_unknown w q f h hd hp]
    · rw [hadd]
      rfl
  · intro pos total
    refine ⟨rfl, ?_⟩
    intro hfit
    simp [onFileProgress, emit, wrapQint64_of_fits _ hfit]
  · intro d
    rw [finish_eq]

theorem progress_running_byte_count_witness :
    CommandQueue.construct._aborted = false ∧
      fitsQint64 (CommandQueue.construct._completedFilesSize + worldA.size ['x']) = true ∧
      progressValues (addedEvents CommandQueue.construct
        (downloadFile worldA CommandQueue.construct ['x'] 1)) = [3, 7, 10] ∧
      (downloadFile worldA CommandQueue.construct ['x'] 1)._completedFilesSize = 10 ∧
      bytesHandedFit CommandQueue.construct
        [(worldA, Call.execute (Command.DownloadFile ['x'] 1)),
          (worldA, Call.execute (Command.UploadFile ['y']))] 0 = true ∧
      (run CommandQueue.construct
        [(worldA, Call.execute (Command.DownloadFile ['x'] 1)),
          (worldA, Call.execute (Command.UploadFile ['y']))])._completedFilesSize = 20 :=
  ⟨rfl, by decide,
    ((progress_running_byte_count worldA CommandQueue.construct).2.2.1 ['x'] 1 rfl
      (by decide) (by decide)).2.2.trans (by decide),
    ((progress_running_byte_count worldA CommandQueue.construct).2.2.1 ['x'] 1 rfl
      (by decide) (by decide)).2.1.trans (by decide),
    by decide,
    ((progress_running_byte_count worldA CommandQueue.construct).1
      [(worldA, Call.execute (Command.DownloadFile ['x'] 1)),
        (worldA, Call.execute (Command.UploadFile ['y']))] (by decide)).trans (by decide)⟩

theorem step_keeps_aborted (w : World) (q : CommandQueue) (c : Call)
    (hq : q._aborted = true) (hc : isFinish c = false) : (step w q c)._aborted = true := by
  cases c with
  | abort => rfl
  | onFileProgress pos total => simpa [step, onFileProgress, emit] using hq
  | execute cmd =>
    cases cmd with
    | FinishQueue d => simp [isFinish] at hc
    | UploadFile f => simp [step, execute, uploadFile, hq]
    | MakeDirectory f => simp [step, execute, createDirectory, hq]
    | DownloadFile f id => simp [step, execute, downloadFile, hq]

theorem run_keeps_aborted (calls : List (World × Call)) :
    ∀ q : CommandQueue, q._aborted = true → (∀ wc ∈ calls, isFinish wc.2 = false) →
      (run q calls)._aborted = true := by
  induction calls with
  | nil => intro q hq _; exact hq
  | cons wc rest ih =>
    intro q hq hcalls
    obtain ⟨w, c⟩ := wc
    exact ih _ (step_keeps_aborted w q c hq (hcalls (w, c) (by simp)))
      (fun wc hwc => hcalls wc (List.mem_cons_of_mem _ hwc))

/-- C9: after `abort` the flag is set, also when the session call throws, and it stays
set through every sequence of calls without a `finish`.  While the flag is set, every
sequence of `downloadFile`, `uploadFile` and `createDirectory` commands leaves the whole
state as it is: no model operation, no `started` or `progress` signal, the directory map
and the cumulative size unchanged.  `finish` clears the flag, the directory map and the
cumulative size whatever `setParent` returns or throws. -/
theorem aborted_skips_until_finish (w : World) (q : CommandQueue) :
    (abort w q).2._aborted = true ∧
    (∀ calls : List (World × Call), q._aborted = true →
        (∀ wc ∈ calls, isFinish wc.2 = false) → (run q calls)._aborted = true) ∧
    (∀ cmds : List (World × Command), q._aborted = true →
        (∀ wc ∈ cmds, ∀ d, wc.2 ≠ Command.FinishQueue d) →
        run q (cmds.map (fun wc => (wc.1, Call.execute wc.2))) = q) ∧
    (∀ directoryId : ObjectId,
        (finish w q directoryId)._aborted = false ∧
        (finish w q directoryId)._directories = [] ∧
        (finish w q directoryId)._completedFilesSize = 0) := by
  refine ⟨rfl, fun calls hq hcalls => run_keeps_aborted calls q hq hcalls, ?_, ?_⟩
  · intro cmds hq hcmds
    induction cmds with
    | nil => rfl
    | cons wc rest ih =>
      obtain ⟨w1, cmd⟩ := wc
      have hrest : ∀ wc ∈ rest, ∀ d, wc.2 ≠ Command.FinishQueue d :=
        fun wc hwc => hcmds wc (List.mem_cons_of_mem _ hwc)
      have hstep : step w1 q (Call.execute cmd) = q := by
        cases cmd with
        | FinishQueue d => exact absurd rfl (hcmds (w1, Command.FinishQueue d) (by simp) d)
        | UploadFile f => simp [step, execute, uploadFile, hq]
        | MakeDirectory f => simp [step, execute, createDirectory, hq]
        | DownloadFile f id => simp [step, execute, downloadFile, hq]
      simp only [List.map_cons, run, hstep]
      exact ih hrest
  · intro d
    rw [finish_eq]
    exact ⟨rfl, rfl, rfl⟩

theorem aborted_skips_until_finish_witness :
    (abort worldA CommandQueue.construct).2._aborted = true ∧
      run (abort worldA CommandQueue.construct).2
          [(worldA, Call.execute (Command.UploadFile ['x'])),
            (worldA, Call.execute (Command.DownloadFile ['y'] 3)),
            (worldA, Call.execute (Command.MakeDirectory ['z']))] =
        (abort worldA CommandQueue.construct).2 :=
  ⟨rfl,
    (aborted_skips_until_finish worldA (abort worldA CommandQueue.construct).2).2.2.1
      [(worldA, Command.UploadFile ['x']), (worldA, Command.DownloadFile ['y'] 3),
        (worldA, Command.MakeDirectory ['z'])]
      rfl
      (by
        intro wc hwc d
        simp only [List.mem_cons, List.mem_singleton, List.not_mem_nil, or_false] at hwc
        rcases hwc with h | h | h <;> subst h <;> simp)⟩

end qt

namespace mtp.fuse

/-! ## Properties of `FuseDirectory::Reply` -/

theorem toOff_eq (n : Nat) (h : n < 2 ^ 63) : toOff n = (n : Int) := by
  unfold toOff
  omega

theorem subOff_eq (n : Nat) (off : Int) (h0 : 0 ≤ off) (h1 : off < n) (h : n < 2 ^ 63) :
    subOff n off = n - off.toNat := by
  unfold subOff
  omega

/-- C10: `Reply` never replies with bytes outside the cached listing.  For a buffer
`data` (a `std::vector<char>`, so shorter than `2^63`), an offset `off ≥ 0` and any
`size`: when `off` is at or past the end of `data` the reply is the empty buffer;
otherwise it is the `min(size, |data| - off)` bytes of `data` that start at `off`, so that
`off` plus the length is at most `|data|` and the length is at most `size`. -/
theorem Reply_in_bounds (data : CharArray) (off : Int) (size : Nat) (hoff : 0 ≤ off)
    (hlen : data.length < 2 ^ 63) :
    ((data.length : Int) ≤ off → Reply data off size = ⟨none, 0⟩) ∧
    (off < (data.length : Int) →
      Reply data off size = ⟨some off, min size (data.length - off.toNat)⟩ ∧
      off.toNat + (Reply data off size).size ≤ data.length ∧
      (Reply data off size).size ≤ size ∧
      (Reply data off size).bytes data =
        (data.drop off.toNat).take (min size (data.length - off.toNat)) ∧
      ((Reply data off size).bytes data).length = min size (data.length - off.toNat)) := by
  have ht := toOff_eq data.length hlen
  constructor
  · intro h
    simp [Reply, ht, h]
  · intro h
    have hs := subOff_eq data.length off hoff h hlen
    have hr : Reply data off size = ⟨some off, min size (data.length - off.toNat)⟩ := by
      simp [Reply, ht, hs, h]
    rw [hr]
    refine ⟨rfl, ?_, ?_, rfl, ?_⟩
    · simp only []
      omega
    · simp only []
      omega
    · simp only [ReplyBuf.bytes, List.length_take, List.length_drop]
      omega

theorem Reply_in_bounds_witness :
    (0 : Int) ≤ 2 ∧ (['a', 'b', 'c', 'd', 'e'] : CharArray).length < 2 ^ 63 ∧
      Reply ['a', 'b', 'c', 'd', 'e'] 2 10 = ⟨some 2, 3⟩ ∧
      Reply ['a', 'b', 'c', 'd', 'e'] 5 10 = ⟨none, 0⟩ :=
  ⟨by decide, by decide,
    ((Reply_in_bounds ['a', 'b', 'c', 'd', 'e'] 2 10 (by decide) (by decide)).2
      (by decide)).1,
    (Reply_in_bounds ['a', 'b', 'c', 'd', 'e'] 5 10 (by decide) (by decide)).1 (by decide)⟩

end mtp.fuse
